import Mathlib

/-!
Shallow embedding of FloBaRoID's `excitation/postureOptimizer.py`
(`PostureOptimizer`): the kinematic neighbor map built in `__init__`, the
link-distance evaluation `getLinkDistance`, the constraint/objective
evaluation `objectiveFunc` with its incumbent tracking, and the bounding-box
construction.  External collaborators (iDynTree kinematics, FCL geometry,
the simulate/identify pipeline) enter as oracle parameters; floats are
modelled as rationals.
-/

namespace PostureOptimizer

/-! ### Kinematic model and the neighbor map (`__init__`, lines 56-89)

iDynTree's model is abstracted to its link count and joint list; link names
are in bijection with link indices (`getLinkName`/`getLinkIndex`), so links
are identified with their indices here. -/

/-- One joint of the iDynTree model: its two attached links
(`getFirstAttachedLink` / `getSecondAttachedLink`) and whether it is a fixed
joint (`isFixedJoint`). -/
structure IdynJoint where
  firstLink : Nat
  secondLink : Nat
  isFixed : Bool
deriving DecidableEq

/-- The iDynTree model as seen by the neighbor-map construction:
`getNrOfLinks` and the list of joints. -/
structure IdynModel where
  numLinks : Nat
  joints : List IdynJoint
deriving DecidableEq

/-- The joints attached to link `l` (the joints enumerated by
`getNrOfNeighbors`/`getNeighbor`: one neighbor entry per joint attached to
`l`). -/
def attachedJoints (M : IdynModel) (l : Nat) : List IdynJoint :=
  M.joints.filter fun j => j.firstLink = l ∨ j.secondLink = l

/-- The direct neighbor links of `l` recorded in
`self.neighbors[link_name]['links']` by the first pass (lines 61-70): the
far endpoint of each attached joint. -/
def directNeighborLinks (M : IdynModel) (l : Nat) : List Nat :=
  (attachedJoints M l).map fun j =>
    if j.firstLink = l then j.secondLink else j.firstLink

/-- Lines 81-86: the link on the far side of joint `j` from link `nb`
(`nb_fixed`). -/
def farSide (j : IdynJoint) (nb : Nat) : Nat :=
  if j.firstLink = nb then j.secondLink else j.firstLink

/-- The inner two loops of the merge pass (lines 77-89) for one neighbor
`nb` of link `l`: for each joint of `nb`, if it is fixed, append the far
link to the (current) neighbor list unless it is `l` itself or already
present.  `self.neighbors_tmp[nb]['joints']` is the joint list built in the
first pass (`dict.copy()` is shallow and the joint lists are never
mutated), i.e. `attachedJoints M nb`. -/
def mergeStep (M : IdynModel) (l : Nat) (links : List Nat) (nb : Nat) : List Nat :=
  (attachedJoints M nb).foldl
    (fun acc j =>
      if j.isFixed then
        if farSide j nb ≠ l ∧ farSide j nb ∉ acc then acc ++ [farSide j nb]
        else acc
      else acc)
    links

/-- The loop `for nb in self.neighbors_tmp[link_name]['links']` (line 76).
Because `self.neighbors_tmp = self.neighbors.copy()` (line 73) is a
*shallow* copy, `self.neighbors_tmp[link_name]['links']` is the very list
object that line 89 appends to, and a Python `for` over a list is
index-based: it also visits elements appended during the iteration.  This
is modelled by an index cursor `i` over the growing list; `fuel` bounds the
number of iterations (the real loop terminates because every append is of
an element not yet in the list). -/
def mergeLoop (M : IdynModel) (l : Nat) : Nat → List Nat → Nat → List Nat
  | 0, links, _ => links
  | fuel+1, links, i =>
      if h : i < links.length then
        mergeLoop M l fuel (mergeStep M l links (links.get ⟨i, h⟩)) (i+1)
      else links

/-- Iteration budget that is always sufficient for the real loop: the
final list contains the initial elements plus pairwise-distinct appended
joint endpoints, so its length is at most
`(directNeighborLinks M l).length + 2 * M.joints.length`. -/
def mergeFuel (M : IdynModel) (l : Nat) : Nat :=
  (directNeighborLinks M l).length + 2 * M.joints.length + 1

/-- `self.neighbors[link_name]['links']` after the fixed-joint merge pass
(lines 72-89) for link `l`. -/
def neighborsMerged (M : IdynModel) (l : Nat) : List Nat :=
  mergeLoop M l (mergeFuel M l) (directNeighborLinks M l) 0

/-- The merge pass as the specification describes it: the iteration reads
each neighbor and its joints from an *immutable snapshot* of the
direct-adjacency map, so only the original direct neighbors are processed
(exactly one level of transitive closure across fixed joints).  Stated for
comparison with `neighborsMerged`, the behavior of the code. -/
def neighborsMergedSnapshot (M : IdynModel) (l : Nat) : List Nat :=
  (directNeighborLinks M l).foldl (fun acc nb => mergeStep M l acc nb)
    (directNeighborLinks M l)

/-! ### `getLinkDistance` (lines 97-138) -/

/-- The geometry answers consumed by `getLinkDistance` for one link pair at
one posture: the value of `fcl.distance(o0, o1, DistanceRequest(True))`
and the penetration depths of the contacts reported by
`fcl.collide(o0, o1, cr)` with `enable_contact = True`
(`c_result.contacts[k].penetration_depth`). -/
structure FclOutcome where
  distance : ℚ
  contacts : List ℚ

/-- Lines 123-138: if the distance query is negative (overlap), re-query
with a collision request; if at least one contact is reported, the returned
value becomes the first contact's `penetration_depth`, otherwise the
original distance is returned. -/
def getLinkDistance (fo : FclOutcome) : ℚ :=
  if fo.distance < 0 then
    match fo.contacts with
    | [] => fo.distance
    | c :: _ => c
  else fo.distance

/-! ### Configuration and the constraint vector `g` (lines 150-183) -/

/-- The configuration entries read by `objectiveFunc` and `__init__`.
`verbose` is an integer flag (the code assigns `0` to it and restores the
old value); booleans such as the plotting toggles only gate side effects
and are omitted. -/
structure Config where
  verbose : Nat
  num_dofs : Nat
  numStaticPostures : Nat
  ignoreLinksForCollision : List String
  ignoreLinkPairsForCollision : List (List String)

/-- The body of the `l1` loop (lines 158-183) for one posture slice `q` and
one index pair: `some v` when an entry with value `v` is written to `g`
(and `g_cnt` advanced), `none` when the iteration writes nothing.
`linkNames` is `self.model.linkNames`, `nbrs` the merged neighbor map
(`self.neighbors[·]['links']` as names), and `dist l0 l1 q` the value of
`self.getLinkDistance(l0, l1, q)`. -/
def pairEntry (linkNames : List String) (cfg : Config)
    (nbrs : String → List String) (dist : Nat → Nat → List ℚ → ℚ)
    (q : List ℚ) (l0 l1 : Nat) : Option ℚ :=
  if l0 > l1 then none
  else if l0 = l1 then none
  else
    let l0_name := linkNames.getD l0 ""
    let l1_name := linkNames.getD l1 ""
    if l0_name ∈ cfg.ignoreLinksForCollision ∨
        l1_name ∈ cfg.ignoreLinksForCollision then some 10
    else if [l0_name, l1_name] ∈ cfg.ignoreLinkPairsForCollision then some 10
    else if l0_name ∈ nbrs l1_name ∨ l1_name ∈ nbrs l0_name then some 10
    else if l0 < l1 then some (dist l0 l1 q)
    else none

/-- The sentinel-or-distance value of one constraint entry for a pair
`l0 < l1` (the branch cascade of lines 163-182 without the loop guards). -/
def pairValue (linkNames : List String) (cfg : Config)
    (nbrs : String → List String) (dist : Nat → Nat → List ℚ → ℚ)
    (q : List ℚ) (l0 l1 : Nat) : ℚ :=
  let l0_name := linkNames.getD l0 ""
  let l1_name := linkNames.getD l1 ""
  if l0_name ∈ cfg.ignoreLinksForCollision ∨
      l1_name ∈ cfg.ignoreLinksForCollision then 10
  else if [l0_name, l1_name] ∈ cfg.ignoreLinkPairsForCollision then 10
  else if l0_name ∈ nbrs l1_name ∨ l1_name ∈ nbrs l0_name then 10
  else dist l0 l1 q

/-- The immutable context a `PostureOptimizer` instance carries into
`objectiveFunc`: model data fixed at construction plus the external
collaborators as oracles.  `getLinkDist l0 l1 q` stands for
`getLinkDistance(l0, l1, q)` (forward kinematics and FCL are external);
`sim_func`/`identify` stand for the simulate-and-identify pipeline. -/
structure OptCtx where
  linkNames : List String
  num_links : Nat
  neighbors : String → List String
  getLinkDist : Nat → Nat → List ℚ → ℚ
  sim_func : Config → List (ℚ × List ℚ) → List ℚ
  identify : List ℚ → List ℚ
  xStdReal : List ℚ
  id_grav : List Nat

/-- The constraint-building triple loop (lines 154-183): `g` as the list of
entries written in order.  The posture slice is
`x[p*num_dofs : (p+1)*num_dofs]` (line 156); `l0` ranges over
`range(num_links-1)`, `l1` over `range(num_links)` with the
`l0 > l1` / `l0 == l1` skips inside `pairEntry`. -/
def gEntries (ctx : OptCtx) (cfg : Config) (x : List ℚ) : List ℚ :=
  (List.range cfg.numStaticPostures).flatMap fun p =>
    (List.range (ctx.num_links - 1)).flatMap fun l0 =>
      (List.range ctx.num_links).filterMap fun l1 =>
        pairEntry ctx.linkNames cfg ctx.neighbors ctx.getLinkDist
          ((x.drop (p * cfg.num_dofs)).take cfg.num_dofs) l0 l1

/-- The canonical deterministic enumeration the specification describes:
postures in order, then `l0` ascending, then `l1` ascending over pairs
`l0 < l1`. -/
def gTriples (P n : Nat) : List (Nat × Nat × Nat) :=
  (List.range P).flatMap fun p =>
    (List.range n).flatMap fun l0 =>
      ((List.range n).filter fun l1 => decide (l0 < l1)).map fun l1 => (p, l0, l1)

/-! ### Objective evaluation (`objectiveFunc`, lines 141-231) -/

/-- `np.all(g > 0.0)` (lines 94-95). -/
def testConstraints (g : List ℚ) : Bool :=
  g.all fun gi => decide (0 < gi)

/-- Line 40: `self.posture_time = 0.05`. -/
def posture_time : ℚ := 1/20

/-- Lines 270-278 (`vecToParam`): the solution vector reshaped into
`(start_time, angles)` postures, posture-major, joint-minor. -/
def vecToParam (num_postures num_dofs : Nat) (x : List ℚ) :
    List (ℚ × List ℚ) :=
  (List.range num_postures).map fun (n : Nat) =>
    ((n : ℚ) * posture_time, (x.drop (n * num_dofs)).take num_dofs)

/-- Numpy fancy indexing `v[idx]` (out-of-range totalized to `0`; the real
code would raise). -/
def select (v : List ℚ) (idx : List Nat) : List ℚ :=
  idx.map fun i => v.getD i 0

/-- `np.linalg.norm(v)**2`: the squared Euclidean norm, i.e. the sum of the
squared entries. -/
def normSq (v : List ℚ) : ℚ :=
  (v.map fun a => a ^ 2).sum

/-- The mutable per-run state of the optimizer instance touched by
`objectiveFunc`: the iteration counter and the incumbent
(`last_best_f`, `last_best_sol`). -/
structure OptState where
  iter_cnt : Nat
  last_best_f : ℚ
  last_best_sol : List ℚ

/-- The triple `(f, g, fail)` returned by `objectiveFunc`. -/
structure EvalResult where
  f : ℚ
  g : List ℚ
  fail : Bool

/-- Lines 141-231 (`objectiveFunc`) as a state transformer: given the
instance context, the current configuration dictionary and mutable state,
and the design vector `x`, produce the returned `(f, g, fail)` together
with the configuration and state after the call.  Prints and plotting are
side effects without data flow and are omitted.  The estimated parameter
vector `self.idf.model.xStd` is modelled from the spec: the identification
routine (in `identification/model.py`, not part of the sources here)
produces the estimated parameters restricted to the gravity-identification
subset, one entry per index in `id_grav`. -/
def objectiveFunc (ctx : OptCtx) (cfg : Config) (st : OptState) (x : List ℚ) :
    EvalResult × Config × OptState :=
  let st1 : OptState := { st with iter_cnt := st.iter_cnt + 1 }
  let g := gEntries ctx cfg x
  let angles := vecToParam cfg.numStaticPostures cfg.num_dofs x
  let old_verbose := cfg.verbose
  let cfg1 : Config := { cfg with verbose := 0 }
  let trajectory_data := ctx.sim_func cfg1 angles
  let xStd := ctx.identify trajectory_data
  let cfg2 : Config := { cfg1 with verbose := old_verbose }
  let param_error := List.zipWith (fun a b => a - b)
    (select ctx.xStdReal ctx.id_grav) xStd
  let f := normSq param_error
  let c := testConstraints g
  let st2 : OptState :=
    if c = true ∧ f < st1.last_best_f then
      { st1 with last_best_f := f, last_best_sol := x }
    else st1
  (⟨f, g, false⟩, cfg2, st2)

/-- A sequence of evaluator calls within one run, threading the mutable
state. -/
def runEvaluator (ctx : OptCtx) (st : OptState) :
    List (Config × List ℚ) → OptState
  | [] => st
  | (cfg, x) :: rest => runEvaluator ctx ((objectiveFunc ctx cfg st x).2.2) rest

/-! ### Bounding-box construction (`__init__`, lines 42-50) -/

/-- The center-of-mass argument of `getBoundingBox` for link `i`:
`xStdModel[i*10+1 : i*10+4] / xStdModel[i*10]`.  Division by a zero mass is
the fallible branch, modelled as `none`. -/
def buildCom (xStdModel : List ℚ) (i : Nat) : Option (List ℚ) :=
  let mass := xStdModel.getD (i * 10) 0
  if mass = 0 then none
  else some (((xStdModel.drop (i * 10 + 1)).take 3).map fun c => c / mass)

/-- `Option`-threading map used to run the construction loop. -/
def mapOptList {α : Type} (f : Nat → Option α) : List Nat → Option (List α)
  | [] => some []
  | i :: is =>
      match f i, mapOptList f is with
      | some a, some as => some (a :: as)
      | _, _ => none

/-- Lines 42-50: `self.link_cuboid_hulls`, one bounding box per link, each
built from the center of mass `xStdModel[i*10+1:i*10+4] / xStdModel[i*10]`.
`bbox` is the external `urdfHelpers.getBoundingBox` oracle. -/
def link_cuboid_hulls (bbox : List ℚ → Nat → List ℚ) (xStdModel : List ℚ)
    (num_links : Nat) : Option (List (List ℚ)) :=
  mapOptList (fun i => (buildCom xStdModel i).map fun com => bbox com i)
    (List.range num_links)

/-! ### Concrete models used by counterexamples and witnesses -/

/-- A four-link kinematic chain: link 0 to link 1 by a revolute joint, then
links 1-2 and 2-3 by fixed joints.  Link 3 lies *two* fixed joints beyond
link 0's direct neighbor 1. -/
def chainModel : IdynModel :=
  ⟨4, [⟨0, 1, false⟩, ⟨1, 2, true⟩, ⟨2, 3, true⟩]⟩

/-- A small concrete optimizer context: two links joined by nothing the
collision logic filters out, a constant link distance of `3`, an
identification oracle returning `[4]` against ground truth `[9]` at
parameter index `0`. -/
def ctx0 : OptCtx :=
  { linkNames := ["a", "b"], num_links := 2, neighbors := fun _ => [],
    getLinkDist := fun _ _ _ => 3, sim_func := fun _ _ => [],
    identify := fun _ => [4], xStdReal := [9], id_grav := [0] }

/-! ### Helper lemmas -/

theorem normSq_cons (a : ℚ) (l : List ℚ) : normSq (a :: l) = a ^ 2 + normSq l := by
  simp [normSq]

theorem select_cons (v : List ℚ) (i : Nat) (is : List Nat) :
    select v (i :: is) = v.getD i 0 :: select v is := rfl

/-- The squared norm of `xStdReal[id_grav] - est` written as the indexed
sum over the selected subset, with the sign of the difference flipped to
(estimated − ground truth). -/
theorem normSq_select_sub (v : List ℚ) :
    ∀ (idx : List Nat) (est : List ℚ), est.length = idx.length →
      normSq (List.zipWith (fun a b => a - b) (select v idx) est) =
        ((List.range idx.length).map fun k =>
          (est.getD k 0 - v.getD (idx.getD k 0) 0) ^ 2).sum := by
  intro idx
  induction idx with
  | nil =>
      intro est h
      have h0 : est = [] := List.length_eq_zero.mp (by simpa using h)
      subst h0
      simp [select, normSq]
  | cons i is ih =>
      intro est h
      cases est with
      | nil => simp at h
      | cons e es =>
          have hlen : es.length = is.length := by simpa using h
          simp only [select_cons, List.zipWith_cons_cons, normSq_cons,
            List.length_cons, List.range_succ_eq_map, List.map_cons,
            List.map_map, Function.comp_def, List.getD_cons_zero,
            List.getD_cons_succ, List.sum_cons]
          rw [ih es hlen]
          ring

/-- The state returned by `objectiveFunc`, in closed form. -/
theorem objectiveFunc_state (ctx : OptCtx) (cfg : Config) (st : OptState)
    (x : List ℚ) :
    (objectiveFunc ctx cfg st x).2.2 =
      if testConstraints ((objectiveFunc ctx cfg st x).1.g) = true ∧
          (objectiveFunc ctx cfg st x).1.f < st.last_best_f
      then ⟨st.iter_cnt + 1, (objectiveFunc ctx cfg st x).1.f, x⟩
      else ⟨st.iter_cnt + 1, st.last_best_f, st.last_best_sol⟩ := rfl

theorem last_best_le (ctx : OptCtx) (cfg : Config) (st : OptState)
    (x : List ℚ) :
    ((objectiveFunc ctx cfg st x).2.2).last_best_f ≤ st.last_best_f := by
  rw [objectiveFunc_state]
  split_ifs with h
  · exact le_of_lt h.2
  · exact le_refl _

theorem mapOptList_isSome {α : Type} (f : Nat → Option α) :
    ∀ L : List Nat, (∀ i ∈ L, (f i).isSome = true) →
      (mapOptList f L).isSome = true := by
  intro L
  induction L with
  | nil => intro; rfl
  | cons i is ih =>
      intro h
      have h1 : (f i).isSome = true := h i (by simp)
      have h2 : (mapOptList f is).isSome = true :=
        ih fun j hj => h j (by simp [hj])
      simp only [mapOptList]
      rcases hfi : f i with _ | a
      · rw [hfi] at h1; simp at h1
      · rcases hrest : mapOptList f is with _ | as
        · rw [hrest] at h2; simp at h2
        · simp

/-- On `ctx0` the objective value is `(9 - 4)² = 25` whatever the state. -/
theorem ctx0_f (cfg : Config) (st : OptState) (x : List ℚ) :
    (objectiveFunc ctx0 cfg st x).1.f = 25 := by
  show normSq (List.zipWith (fun a b => a - b) [(9 : ℚ)] [(4 : ℚ)]) = 25
  norm_num [normSq]

theorem buildCom_isSome (xStdModel : List ℚ) (i : Nat)
    (h : xStdModel.getD (i * 10) 0 ≠ 0) :
    (buildCom xStdModel i).isSome = true := by
  simp only [buildCom, ne_eq]
  rw [if_neg h]
  rfl

/-- The `l1` loop body writes exactly one entry when `l0 < l1` — the
sentinel-or-distance value — and nothing otherwise. -/
theorem pairEntry_eq (linkNames : List String) (cfg : Config)
    (nbrs : String → List String) (dist : Nat → Nat → List ℚ → ℚ)
    (q : List ℚ) (l0 l1 : Nat) :
    pairEntry linkNames cfg nbrs dist q l0 l1 =
      if l0 < l1 then some (pairValue linkNames cfg nbrs dist q l0 l1)
      else none := by
  simp only [pairEntry, pairValue]
  split_ifs <;> first | rfl | omega

theorem filterMap_ite {α β : Type} (p : α → Prop) [DecidablePred p] (f : α → β) :
    ∀ L : List α,
      (L.filterMap fun a => if p a then some (f a) else none) =
        (L.filter fun a => decide (p a)).map f := by
  intro L
  induction L with
  | nil => rfl
  | cons a as ih =>
      by_cases h : p a <;>
        simp [List.filterMap_cons, List.filter_cons, h, ih]

theorem length_filter_lt (l0 : Nat) :
    ∀ n : Nat, ((List.range n).filter fun l1 => decide (l0 < l1)).length
      = n - (l0 + 1) := by
  intro n
  induction n with
  | zero => simp
  | succ m ih =>
      rw [List.range_succ, List.filter_append, List.length_append, ih]
      by_cases h : l0 < m
      · simp [List.filter_cons, h]
        omega
      · simp [List.filter_cons, h]
        omega

theorem sum_range_sub_two_mul :
    ∀ n : Nat,
      2 * ((List.range n).map fun l0 => n - (l0 + 1)).sum = n * (n - 1) := by
  intro n
  induction n with
  | zero => rfl
  | succ m ih =>
      rw [List.range_succ_eq_map]
      simp only [List.map_cons, List.map_map, Function.comp_def,
        Nat.succ_eq_add_one, List.sum_cons]
      have he : (fun l0 : Nat => m + 1 - (l0 + 1 + 1)) =
          fun l0 : Nat => m - (l0 + 1) := by
        funext l0; omega
      rw [he]
      have hm : m * (m - 1) + 2 * m = (m + 1) * m := by
        cases m with
        | zero => rfl
        | succ k =>
            simp only [Nat.succ_sub_one]
            ring
      have hone : m + 1 + 1 - 1 = m + 1 := by omega
      have htop : (m + 1) * (m + 1 - 1) = (m + 1) * m := by
        rw [Nat.add_sub_cancel]
      omega

theorem sum_range_sub (n : Nat) :
    ((List.range n).map fun l0 => n - (l0 + 1)).sum = n * (n - 1) / 2 := by
  have h := sum_range_sub_two_mul n
  omega

theorem gTriples_length (P n : Nat) :
    (gTriples P n).length = P * (n * (n - 1) / 2) := by
  unfold gTriples
  rw [List.length_flatMap]
  have hmap : ((List.range P).map (List.length ∘ fun p =>
      (List.range n).flatMap fun l0 =>
        ((List.range n).filter fun l1 => decide (l0 < l1)).map
          fun l1 => (p, l0, l1))) =
      (List.range P).map fun _ => n * (n - 1) / 2 := by
    apply List.map_congr_left
    intro p _
    simp only [Function.comp_apply, List.length_flatMap]
    have h2 : ((List.range n).map (List.length ∘ fun l0 =>
        ((List.range n).filter fun l1 => decide (l0 < l1)).map
          fun l1 => (p, l0, l1))) =
        (List.range n).map fun l0 => n - (l0 + 1) := by
      apply List.map_congr_left
      intro l0 _
      simp only [Function.comp_apply, List.length_map]
      exact length_filter_lt l0 n
    rw [h2, sum_range_sub]
  rw [hmap, List.map_const', List.sum_replicate, List.length_range, smul_eq_mul]

theorem flatMap_range_pred {β : Type} (n : Nat) (f : Nat → List β)
    (hlast : ∀ m, n = m + 1 → f m = []) :
    (List.range (n - 1)).flatMap f = (List.range n).flatMap f := by
  cases n with
  | zero => rfl
  | succ m =>
      rw [Nat.succ_sub_one, List.range_succ, List.flatMap_append]
      simp [hlast m rfl]

/-- Closure predicate for the merge pass: every far side of a fixed joint
of `m` (other than `l` itself) is already in `r`. -/
def fixedClosed (M : IdynModel) (l : Nat) (r : List Nat) (m : Nat) : Prop :=
  ∀ j ∈ attachedJoints M m, j.isFixed = true → farSide j m ≠ l → farSide j m ∈ r

theorem fixedClosed_append (M : IdynModel) (l : Nat) (r t : List Nat) (m : Nat)
    (h : fixedClosed M l r m) : fixedClosed M l (r ++ t) m :=
  fun j hj hf hne => List.mem_append_left t (h j hj hf hne)

theorem foldl_merge_growth (l nb : Nat) :
    ∀ (js : List IdynJoint) (acc : List Nat),
      ∃ t, js.foldl
        (fun acc j =>
          if j.isFixed then
            if farSide j nb ≠ l ∧ farSide j nb ∉ acc then acc ++ [farSide j nb]
            else acc
          else acc) acc = acc ++ t := by
  intro js
  induction js with
  | nil => intro acc; exact ⟨[], by simp⟩
  | cons j js ih =>
      intro acc
      have hstep : ∃ s, (if j.isFixed then
          if farSide j nb ≠ l ∧ farSide j nb ∉ acc then acc ++ [farSide j nb]
          else acc
        else acc) = acc ++ s := by
        split_ifs with h1 h2
        · exact ⟨[farSide j nb], rfl⟩
        · exact ⟨[], by simp⟩
        · exact ⟨[], by simp⟩
      rcases hstep with ⟨s, hs⟩
      rcases ih (if j.isFixed then
          if farSide j nb ≠ l ∧ farSide j nb ∉ acc then acc ++ [farSide j nb]
          else acc
        else acc) with ⟨t, ht⟩
      exact ⟨s ++ t, by rw [List.foldl_cons, ht, hs, List.append_assoc]⟩

theorem mergeStep_growth (M : IdynModel) (l : Nat) (links : List Nat) (nb : Nat) :
    ∃ t, mergeStep M l links nb = links ++ t :=
  foldl_merge_growth l nb (attachedJoints M nb) links

theorem foldl_merge_closes (l nb : Nat) :
    ∀ (js : List IdynJoint) (acc : List Nat) (j : IdynJoint),
      j ∈ js → j.isFixed = true → farSide j nb ≠ l →
      farSide j nb ∈ js.foldl
        (fun acc j =>
          if j.isFixed then
            if farSide j nb ≠ l ∧ farSide j nb ∉ acc then acc ++ [farSide j nb]
            else acc
          else acc) acc := by
  intro js
  induction js with
  | nil => intro acc j h; simp at h
  | cons j0 js ih =>
      intro acc j hj hfix hne
      rw [List.foldl_cons]
      rcases List.mem_cons.mp hj with h | h
      · subst h
        have hmem : farSide j nb ∈ (if j.isFixed then
            if farSide j nb ≠ l ∧ farSide j nb ∉ acc then acc ++ [farSide j nb]
            else acc
          else acc) := by
          rw [if_pos hfix]
          by_cases h2 : farSide j nb ∉ acc
          · rw [if_pos ⟨hne, h2⟩]
            exact List.mem_append_right _ (by simp)
          · push_neg at h2
            split_ifs with h3
            · exact List.mem_append_left _ h2
            · exact h2
        rcases foldl_merge_growth l nb js (if j.isFixed then
            if farSide j nb ≠ l ∧ farSide j nb ∉ acc then acc ++ [farSide j nb]
            else acc
          else acc) with ⟨t, ht⟩
        rw [ht]
        exact List.mem_append_left _ hmem
      · exact ih _ j h hfix hne

theorem mergeStep_closes (M : IdynModel) (l : Nat) (links : List Nat) (nb : Nat) :
    fixedClosed M l (mergeStep M l links nb) nb :=
  fun j hj hf hne => foldl_merge_closes l nb (attachedJoints M nb) links j hj hf hne

theorem mergeLoop_growth (M : IdynModel) (l : Nat) :
    ∀ (fuel : Nat) (links : List Nat) (i : Nat),
      ∃ t, mergeLoop M l fuel links i = links ++ t := by
  intro fuel
  induction fuel with
  | zero => intro links i; exact ⟨[], by simp [mergeLoop]⟩
  | succ fuel ih =>
      intro links i
      by_cases h : i < links.length
      · have hred : mergeLoop M l (fuel + 1) links i =
            mergeLoop M l fuel (mergeStep M l links (links.get ⟨i, h⟩)) (i + 1) := by
          simp only [mergeLoop, dif_pos h]
        rcases ih (mergeStep M l links (links.get ⟨i, h⟩)) (i + 1) with ⟨t, ht⟩
        rcases mergeStep_growth M l links (links.get ⟨i, h⟩) with ⟨s, hs⟩
        exact ⟨s ++ t, by rw [hred, ht, hs, List.append_assoc]⟩
      · exact ⟨[], by simp [mergeLoop, dif_neg h]⟩

theorem mergeLoop_closed (M : IdynModel) (l : Nat) :
    ∀ (fuel : Nat) (links : List Nat) (i : Nat),
      (mergeLoop M l fuel links i).length + 1 ≤ i + fuel →
      (∀ k (hk : k < links.length), k < i →
        fixedClosed M l links (links.get ⟨k, hk⟩)) →
      ∀ m ∈ mergeLoop M l fuel links i,
        fixedClosed M l (mergeLoop M l fuel links i) m := by
  intro fuel
  induction fuel with
  | zero =>
      intro links i hfuel hinv m hm
      simp only [mergeLoop] at hfuel hm ⊢
      rcases List.mem_iff_get.mp hm with ⟨⟨k, hk⟩, hget⟩
      have hki : k < i := by omega
      exact hget ▸ hinv k hk hki
  | succ fuel ih =>
      intro links i hfuel hinv
      by_cases h : i < links.length
      · have hred : mergeLoop M l (fuel + 1) links i =
            mergeLoop M l fuel (mergeStep M l links (links.get ⟨i, h⟩)) (i + 1) := by
          simp only [mergeLoop, dif_pos h]
        rw [hred] at hfuel ⊢
        apply ih
        · omega
        · intro k hk hki
          rcases mergeStep_growth M l links (links.get ⟨i, h⟩) with ⟨t, ht⟩
          by_cases hki' : k < i
          · have hklen : k < links.length := lt_of_lt_of_le hki' (le_of_lt h)
            have hgeteq : (mergeStep M l links (links.get ⟨i, h⟩)).get ⟨k, hk⟩ =
                links.get ⟨k, hklen⟩ :=
              (List.get_of_eq ht ⟨k, hk⟩).trans (List.get_append k hklen)
            rw [hgeteq, ht]
            exact fixedClosed_append M l links t _ (hinv k hklen hki')
          · have hkeq : k = i := by omega
            subst hkeq
            have hgeteq : (mergeStep M l links (links.get ⟨k, h⟩)).get ⟨k, hk⟩ =
                links.get ⟨k, h⟩ :=
              (List.get_of_eq ht ⟨k, hk⟩).trans (List.get_append k h)
            rw [hgeteq]
            exact mergeStep_closes M l links (links.get ⟨k, h⟩)
      · have hred : mergeLoop M l (fuel + 1) links i = links := by
          simp only [mergeLoop, dif_neg h]
        rw [hred]
        intro m hm
        rcases List.mem_iff_get.mp hm with ⟨⟨k, hk⟩, hget⟩
        have hki : k < i := by omega
        exact hget ▸ hinv k hk hki

/-! ### Theorems for the claims -/

/-- **C1, counterexample.**  At an overlapping posture (distance query
`-1`) where the collision re-query reports one contact with penetration
depth `2`, `getLinkDistance` returns the penetration depth unchanged:
the returned value is `2`, which is *not* negative, refuting the claim that
the returned value is negative with magnitude equal to the reported
penetration depth. -/
theorem getLinkDistance_overlap_claim_false :
    (-1 : ℚ) < 0 ∧ getLinkDistance ⟨-1, [2]⟩ = 2 ∧
      ¬ getLinkDistance ⟨-1, [2]⟩ < 0 := by decide

/-- **C1, amended.**  For every evaluation at a posture where the bounding
boxes overlap (negative distance-query value): if the follow-up collision
query reports at least one contact point, the value returned is the first
reported penetration depth itself, not negated (so it carries whatever sign
FCL reports); if no contact is reported, the original negative distance
value is returned. -/
theorem getLinkDistance_overlap (fo : FclOutcome) (h : fo.distance < 0) :
    (fo.contacts = [] → getLinkDistance fo = fo.distance) ∧
      ∀ c cs, fo.contacts = c :: cs → getLinkDistance fo = c := by
  unfold getLinkDistance
  rw [if_pos h]
  constructor
  · intro hc; rw [hc]
  · intro c cs hc; rw [hc]

/-- Witness for `getLinkDistance_overlap` at a concrete overlap outcome. -/
theorem getLinkDistance_overlap_witness :
    getLinkDistance ⟨-3, [7]⟩ = 7 :=
  (getLinkDistance_overlap ⟨-3, [7]⟩ (by norm_num)).2 7 [] rfl

/-- **C2, counterexample.**  On `chainModel`, the merge pass of the code
(`neighborsMerged`, which models the shallow `dict.copy()` and the
index-based iteration over the shared, growing list) adds link 3 — two
fixed joints beyond the direct neighbor 1 — to link 0's neighbors, whereas
the snapshot-reading one-level pass the claim describes
(`neighborsMergedSnapshot`) stops at link 2.  The two disagree, refuting
both the immutable-snapshot reading and "exactly one level of transitive
closure". -/
theorem neighbors_merge_not_one_level :
    neighborsMerged chainModel 0 = [1, 2, 3] ∧
      neighborsMergedSnapshot chainModel 0 = [1, 2] ∧
      neighborsMerged chainModel 0 ≠ neighborsMergedSnapshot chainModel 0 := by
  decide

/-- **C2, amended.**  Because the snapshot is only a shallow copy, the
merge pass iterates the very list it extends and so follows entire chains
of fixed joints: for every model and link (the hypothesis says the code's
iteration budget covers the final list, which holds for every actual run —
the loop stops when the cursor reaches the end), the final neighbor list
contains every direct neighbor and is *closed* under taking the far side of
any fixed joint of any of its members (other than the link itself) — full
transitive closure along fixed-joint chains hanging off direct neighbors,
not one level. -/
theorem neighbors_merge_full_closure (M : IdynModel) (l : Nat)
    (hfuel : (neighborsMerged M l).length + 1 ≤ mergeFuel M l) :
    (∀ d ∈ directNeighborLinks M l, d ∈ neighborsMerged M l) ∧
    ∀ m ∈ neighborsMerged M l, ∀ j ∈ attachedJoints M m,
      j.isFixed = true → farSide j m ≠ l →
      farSide j m ∈ neighborsMerged M l := by
  constructor
  · intro d hd
    rcases mergeLoop_growth M l (mergeFuel M l) (directNeighborLinks M l) 0
      with ⟨t, ht⟩
    show d ∈ mergeLoop M l (mergeFuel M l) (directNeighborLinks M l) 0
    rw [ht]
    exact List.mem_append_left t hd
  · intro m hm j hj hf hne
    refine mergeLoop_closed M l (mergeFuel M l) (directNeighborLinks M l) 0
      ?_ ?_ m hm j hj hf hne
    · have h2 : (mergeLoop M l (mergeFuel M l) (directNeighborLinks M l)
          0).length + 1 ≤ mergeFuel M l := hfuel
      omega
    · intro k hk hki
      exact absurd hki (Nat.not_lt_zero k)

/-- Witness for `neighbors_merge_full_closure` on the concrete chain:
direct neighbor 1 is kept, and from member 2 the fixed joint (2,3) forces
membership of link 3 — two fixed joints beyond the direct neighbor. -/
theorem neighbors_merge_full_closure_witness :
    (1 : Nat) ∈ neighborsMerged chainModel 0 ∧
      (3 : Nat) ∈ neighborsMerged chainModel 0 :=
  ⟨(neighbors_merge_full_closure chainModel 0 (by decide)).1 1 (by decide),
   (neighbors_merge_full_closure chainModel 0 (by decide)).2 2 (by decide)
     ⟨2, 3, true⟩ (by decide) rfl (by decide)⟩

/-- **C7.**  The returned `fail` flag is `False` on every call: it is
initialized at line 146 and returned unchanged at line 231, with no path
assigning it. -/
theorem objectiveFunc_fail_always_false (ctx : OptCtx) (cfg : Config)
    (st : OptState) (x : List ℚ) :
    (objectiveFunc ctx cfg st x).1.fail = false := rfl

/-- **C8.**  With the external collaborators (`sim_func`, `identify`,
geometry and model data in `ctx`) and the configuration fixed, the returned
objective `f` and constraint vector `g` are the same for any two internal
states: the iteration counter and the incumbent do not influence `(f, g)`,
so two calls with the same `x` return the same values. -/
theorem objectiveFunc_deterministic (ctx : OptCtx) (cfg : Config)
    (st st' : OptState) (x : List ℚ) :
    (objectiveFunc ctx cfg st x).1.f = (objectiveFunc ctx cfg st' x).1.f ∧
      (objectiveFunc ctx cfg st x).1.g = (objectiveFunc ctx cfg st' x).1.g :=
  ⟨rfl, rfl⟩

/-- **C9.**  `objectiveFunc` leaves the `verbose` configuration entry
unchanged: after the call it equals its pre-call value (lines 191, 198),
and the simulate-and-identify step in between runs on the configuration
with `verbose = 0` (line 192), as the second conjunct exhibits. -/
theorem objectiveFunc_verbose_restored (ctx : OptCtx) (cfg : Config)
    (st : OptState) (x : List ℚ) :
    (objectiveFunc ctx cfg st x).2.1.verbose = cfg.verbose ∧
      (objectiveFunc ctx cfg st x).1.f =
        normSq (List.zipWith (fun a b => a - b)
          (select ctx.xStdReal ctx.id_grav)
          (ctx.identify (ctx.sim_func { cfg with verbose := 0 }
            (vecToParam cfg.numStaticPostures cfg.num_dofs x)))) :=
  ⟨rfl, rfl⟩

/-- **C3.**  For every design-variable vector, the objective value `f` is
the squared Euclidean norm of (estimated parameters − ground-truth
parameters), both restricted to the same gravity-identification index
subset `id_grav`: entry `k` of the estimated subset vector is compared with
`xStdReal[id_grav[k]]`.  The hypothesis is the contract of the (external)
identification routine: its estimate has one entry per selected index. -/
theorem objectiveFunc_f_param_distance (ctx : OptCtx) (cfg : Config)
    (st : OptState) (x : List ℚ)
    (hlen : (ctx.identify (ctx.sim_func { cfg with verbose := 0 }
        (vecToParam cfg.numStaticPostures cfg.num_dofs x))).length =
      ctx.id_grav.length) :
    (objectiveFunc ctx cfg st x).1.f =
      ((List.range ctx.id_grav.length).map fun k =>
        ((ctx.identify (ctx.sim_func { cfg with verbose := 0 }
            (vecToParam cfg.numStaticPostures cfg.num_dofs x))).getD k 0 -
          ctx.xStdReal.getD (ctx.id_grav.getD k 0) 0) ^ 2).sum :=
  normSq_select_sub ctx.xStdReal ctx.id_grav _ hlen

/-- Witness for `objectiveFunc_f_param_distance`: the theorem applied to
`ctx0` (ground truth `[9]` at index `0`, estimate `[4]`), the length
contract holding by computation. -/
theorem objectiveFunc_f_param_distance_witness :
    (objectiveFunc ctx0 ⟨1, 1, 1, [], []⟩ ⟨0, 30, []⟩ [0]).1.f =
      ((List.range ctx0.id_grav.length).map fun k =>
        ((ctx0.identify (ctx0.sim_func { (⟨1, 1, 1, [], []⟩ : Config) with verbose := 0 }
            (vecToParam 1 1 [0]))).getD k 0 -
          ctx0.xStdReal.getD (ctx0.id_grav.getD k 0) 0) ^ 2).sum :=
  objectiveFunc_f_param_distance ctx0 ⟨1, 1, 1, [], []⟩ ⟨0, 30, []⟩ [0] rfl

/-- **C4.**  Feasibility is exactly "every constraint entry strictly
positive"; the incumbent objective never increases on a call; a call whose
candidate is infeasible or not strictly better leaves the incumbent pair
unchanged; a feasible strictly-better call installs `(f, x)`; and over any
sequence of evaluator calls in one run the incumbent objective is
non-increasing. -/
theorem incumbent_monotone (ctx : OptCtx) :
    (∀ g : List ℚ, testConstraints g = true ↔ ∀ gi ∈ g, 0 < gi) ∧
    (∀ (cfg : Config) (st : OptState) (x : List ℚ),
      ((objectiveFunc ctx cfg st x).2.2).last_best_f ≤ st.last_best_f) ∧
    (∀ (cfg : Config) (st : OptState) (x : List ℚ),
      ¬ (testConstraints ((objectiveFunc ctx cfg st x).1.g) = true ∧
          (objectiveFunc ctx cfg st x).1.f < st.last_best_f) →
        ((objectiveFunc ctx cfg st x).2.2).last_best_f = st.last_best_f ∧
        ((objectiveFunc ctx cfg st x).2.2).last_best_sol = st.last_best_sol) ∧
    (∀ (cfg : Config) (st : OptState) (x : List ℚ),
      testConstraints ((objectiveFunc ctx cfg st x).1.g) = true →
      (objectiveFunc ctx cfg st x).1.f < st.last_best_f →
        ((objectiveFunc ctx cfg st x).2.2).last_best_f =
          (objectiveFunc ctx cfg st x).1.f ∧
        ((objectiveFunc ctx cfg st x).2.2).last_best_sol = x) ∧
    (∀ (st : OptState) (calls : List (Config × List ℚ)),
      (runEvaluator ctx st calls).last_best_f ≤ st.last_best_f) := by
  refine ⟨?_, fun cfg st x => last_best_le ctx cfg st x, ?_, ?_, ?_⟩
  · intro g
    simp [testConstraints]
  · intro cfg st x h
    rw [objectiveFunc_state, if_neg h]
    exact ⟨rfl, rfl⟩
  · intro cfg st x h1 h2
    rw [objectiveFunc_state, if_pos ⟨h1, h2⟩]
    exact ⟨rfl, rfl⟩
  · intro st calls
    induction calls generalizing st with
    | nil => exact le_refl _
    | cons hd rest ih =>
        exact le_trans (ih _) (last_best_le ctx hd.1 st hd.2)

/-- Witness for `incumbent_monotone`: a feasible call (`g = [3]`) with
`f = 25 < 30` installs the new objective value as the incumbent. -/
theorem incumbent_monotone_witness :
    ((objectiveFunc ctx0 ⟨1, 1, 1, [], []⟩ ⟨0, 30, []⟩ [0]).2.2).last_best_f =
      (objectiveFunc ctx0 ⟨1, 1, 1, [], []⟩ ⟨0, 30, []⟩ [0]).1.f :=
  ((incumbent_monotone ctx0).2.2.2.1 ⟨1, 1, 1, [], []⟩ ⟨0, 30, []⟩ [0]
    (by decide) (by rw [ctx0_f]; norm_num)).1

/-- **C5.**  For every configuration and design vector, the constraint
vector `g` returned by one evaluator call is exactly the canonical
enumeration (postures in order, then `l0` ascending, then `l1` ascending
over pairs `l0 < l1`) mapped through the per-pair entry value
(`gTriples`/`pairValue`), and its length is exactly
`num_postures * C(num_links, 2)` — the `num_constraints` of line 39. -/
theorem objectiveFunc_g_layout (ctx : OptCtx) (cfg : Config) (st : OptState)
    (x : List ℚ) :
    (objectiveFunc ctx cfg st x).1.g =
      (gTriples cfg.numStaticPostures ctx.num_links).map (fun t =>
        pairValue ctx.linkNames cfg ctx.neighbors ctx.getLinkDist
          ((x.drop (t.1 * cfg.num_dofs)).take cfg.num_dofs) t.2.1 t.2.2) ∧
    ((objectiveFunc ctx cfg st x).1.g).length =
      cfg.numStaticPostures * (ctx.num_links * (ctx.num_links - 1) / 2) := by
  have hmain : (objectiveFunc ctx cfg st x).1.g =
      (gTriples cfg.numStaticPostures ctx.num_links).map (fun t =>
        pairValue ctx.linkNames cfg ctx.neighbors ctx.getLinkDist
          ((x.drop (t.1 * cfg.num_dofs)).take cfg.num_dofs) t.2.1 t.2.2) := by
    show gEntries ctx cfg x = _
    unfold gEntries gTriples
    rw [List.map_flatMap]
    congr 1
    funext p
    rw [List.map_flatMap]
    simp only [List.map_map, Function.comp_def]
    simp only [pairEntry_eq]
    simp only [filterMap_ite]
    apply flatMap_range_pred
    intro m hm
    rw [hm]
    have hfil : ((List.range (m + 1)).filter fun l1 => decide (m < l1)) = [] := by
      rw [List.filter_eq_nil_iff]
      intro a ha
      have := List.mem_range.mp ha
      simp
      omega
    rw [hfil]
    rfl
  exact ⟨hmain, by rw [hmain, List.length_map, gTriples_length]⟩

/-- **C6.**  For every posture slice `q` and pair `l0 < l1` such that
either link is on the ignore-list, or the (ordered) pair is on the
ignored-pair list, or the links are neighbors in either direction, the
constraint entry written is exactly `10.0`, for *every* distance oracle and
every posture — i.e. independent of posture, with no geometry query
influencing the value. -/
theorem pairEntry_sentinel (linkNames : List String) (cfg : Config)
    (nbrs : String → List String) (l0 l1 : Nat) (h01 : l0 < l1)
    (hcond : linkNames.getD l0 "" ∈ cfg.ignoreLinksForCollision ∨
      linkNames.getD l1 "" ∈ cfg.ignoreLinksForCollision ∨
      [linkNames.getD l0 "", linkNames.getD l1 ""] ∈
        cfg.ignoreLinkPairsForCollision ∨
      linkNames.getD l0 "" ∈ nbrs (linkNames.getD l1 "") ∨
      linkNames.getD l1 "" ∈ nbrs (linkNames.getD l0 "")) :
    ∀ (dist : Nat → Nat → List ℚ → ℚ) (q : List ℚ),
      pairEntry linkNames cfg nbrs dist q l0 l1 = some 10 := by
  intro dist q
  simp only [pairEntry]
  split_ifs <;> first
    | rfl
    | omega
    | tauto

/-- Witness for `pairEntry_sentinel`: link "a" is on the ignore-list, so
the entry for pair (0, 1) is the sentinel. -/
theorem pairEntry_sentinel_witness :
    pairEntry ["a", "b"] ⟨0, 0, 0, ["a"], []⟩ (fun _ => [])
      (fun _ _ _ => 0) [] 0 1 = some 10 :=
  pairEntry_sentinel ["a", "b"] ⟨0, 0, 0, ["a"], []⟩ (fun _ => []) 0 1
    (by decide) (Or.inl (by decide)) (fun _ _ _ => 0) []

/-- **C10.**  Under the precondition that every link's mass entry
`xStdModel[i*10]` is nonzero, the center-of-mass division
`xStdModel[i*10+1 : i*10+4] / xStdModel[i*10]` is well-defined for every
link `i < num_links` and the whole bounding-geometry construction
succeeds (the division-by-zero branch is unreachable). -/
theorem link_cuboid_hulls_defined (bbox : List ℚ → Nat → List ℚ)
    (xStdModel : List ℚ) (num_links : Nat)
    (h : ∀ i, i < num_links → xStdModel.getD (i * 10) 0 ≠ 0) :
    (∀ i, i < num_links → (buildCom xStdModel i).isSome = true) ∧
      (link_cuboid_hulls bbox xStdModel num_links).isSome = true := by
  constructor
  · intro i hi
    exact buildCom_isSome xStdModel i (h i hi)
  · apply mapOptList_isSome
    intro i hi
    have hi' : i < num_links := List.mem_range.mp hi
    have h1 := buildCom_isSome xStdModel i (h i hi')
    rcases hb : buildCom xStdModel i with _ | com
    · rw [hb] at h1; simp at h1
    · simp

/-- Witness for `link_cuboid_hulls_defined`: one link with mass `1`. -/
theorem link_cuboid_hulls_defined_witness :
    (link_cuboid_hulls (fun _ _ => []) [1] 1).isSome = true :=
  (link_cuboid_hulls_defined (fun _ _ => []) [1] 1 (by decide)).2

end PostureOptimizer
